import Mathlib

/-
Verification development for plaso/output/kml.py (KMLOutputModule).

Strings are embedded as lists of characters (Chars).  Python float values
never enter the development as floats: the record model carries the decimal
text that str() renders for each coordinate, since the source only ever uses
the coordinates through '{0!s}'.format.

The ElementTree fragment serialization (ElementTree.tostring with its default
us-ascii encoding) is embedded faithfully: text nodes are escaped via
_escape_cdata (& < > replaced by entities) and non-ASCII characters become
decimal character references (the us-ascii encoder's xmlcharrefreplace).
-/

abbrev Chars := List Char

/-- Characters admissible in XML 1.0 text content, excluding carriage return
(which a conforming parser would normalize away, so the conservative parser
model below rejects it outright). -/
def xmlValidChar (c : Char) : Bool :=
  c.toNat == 9 || c.toNat == 10 ||
  (32 ≤ c.toNat && c.toNat ≤ 55295) ||
  (57344 ≤ c.toNat && c.toNat ≤ 65533) ||
  (65536 ≤ c.toNat && c.toNat ≤ 1114111)

/-- Every character of the string is XML-valid text (no carriage return). -/
def validTextChars (s : Chars) : Bool := s.all xmlValidChar

/-- Every character is plain ASCII (fits in one byte of any ASCII-compatible
encoding). -/
def isAsciiChars (s : Chars) : Bool := s.all (fun c => c.toNat ≤ 127)

/-- Decimal digit characters of a natural number below 10^8, most significant
first (the rendering used by xmlcharrefreplace for character references). -/
def decimalDigitsAux : Nat → Nat → Chars
  | 0, _ => []
  | fuel + 1, n =>
    if n < 10 then [Nat.digitChar n]
    else decimalDigitsAux fuel (n / 10) ++ [Nat.digitChar (n % 10)]

def decimalDigits (n : Nat) : Chars := decimalDigitsAux 8 n

def digitVal (c : Char) : Nat := c.toNat - 48

def digitsToNat (ds : Chars) : Nat := ds.foldl (fun a c => 10 * a + digitVal c) 0

/-- One character of ElementTree text serialization: _escape_cdata composed
with the us-ascii byte encoding under errors="xmlcharrefreplace".  The
sequential whole-string replacements of _escape_cdata agree with this
character-by-character map. -/
def escapeChar (c : Char) : Chars :=
  if c = '&' then "&amp;".toList
  else if c = '<' then "&lt;".toList
  else if c = '>' then "&gt;".toList
  else if 128 ≤ c.toNat then '&' :: '#' :: (decimalDigits c.toNat ++ [';'])
  else [c]

/-- ElementTree _escape_cdata followed by us-ascii encoding. -/
def escape_cdata (s : Chars) : Chars := s.foldr (fun c acc => escapeChar c ++ acc) []

/-- One character of ElementTree attribute-value serialization
(_escape_attrib plus us-ascii xmlcharrefreplace). -/
def escapeAttribChar (c : Char) : Chars :=
  if c = '&' then "&amp;".toList
  else if c = '<' then "&lt;".toList
  else if c = '>' then "&gt;".toList
  else if c = '"' then "&quot;".toList
  else if c = '\r' then "&#13;".toList
  else if c = '\n' then "&#10;".toList
  else if c = '\t' then "&#09;".toList
  else if 128 ≤ c.toNat then '&' :: '#' :: (decimalDigits c.toNat ++ [';'])
  else [c]

def escape_attrib (s : Chars) : Chars := s.foldr (fun c acc => escapeAttribChar c ++ acc) []

/-- The ElementTree element model used by WriteEventBody: a tag, attributes,
the text before the first child (Python None is modelled as the empty
string), and the child elements.  Tail text is not modelled; the source
never sets it. -/
inductive XmlElement where
  | mk (tag : Chars) (attrs : List (Chars × Chars)) (text : Chars) (children : List XmlElement)

def XmlElement.tag : XmlElement → Chars
  | .mk t _ _ _ => t

def XmlElement.attrs : XmlElement → List (Chars × Chars)
  | .mk _ a _ _ => a

def XmlElement.text : XmlElement → Chars
  | .mk _ _ x _ => x

def XmlElement.children : XmlElement → List XmlElement
  | .mk _ _ _ cs => cs

/-- Attribute serialization of ElementTree._serialize_xml: each attribute is
written as one space, the name, =, and the double-quoted escaped value. -/
def serializeAttrs (attrs : List (Chars × Chars)) : Chars :=
  attrs.foldr (fun kv acc => ' ' :: (kv.1 ++ '=' :: '"' :: (escape_attrib kv.2 ++ '"' :: acc))) []

mutual

/-- ElementTree._serialize_xml with short_empty_elements=True: an element
with no text and no children is written as a self-closed tag; otherwise the
escaped text and the serialized children sit between the open and close
tags. -/
def serializeXml : XmlElement → Chars
  | .mk tag attrs text children =>
    if text.isEmpty && children.isEmpty then
      '<' :: (tag ++ serializeAttrs attrs ++ " />".toList)
    else
      '<' :: (tag ++ serializeAttrs attrs ++ '>' ::
        (escape_cdata text ++ serializeForest children ++ ('<' :: '/' :: tag ++ ['>'])))

def serializeForest : List XmlElement → Chars
  | [] => []
  | e :: es => serializeXml e ++ serializeForest es

end

/-- ElementTree.tostring with the default (us-ascii) encoding: no XML
declaration, pure ASCII output. -/
def ElementTree_tostring (e : XmlElement) : Chars := serializeXml e

/-- An event record as seen by KMLOutputModule.WriteEventBody.
identifier = some s models event.GetIdentifier().CopyToString() returning s
(then formatted by '{0!s}'); identifier = none models that conversion
raising.  latitude / longitude = some s model the event_data attribute being
present and not None, with str() rendering s; none models the attribute
missing or None.  description is the string returned by
_event_formatting_helper.GetFormattedEvent (an external collaborator,
treated as opaque per the spec). -/
structure EventRecord where
  identifier : Option Chars
  latitude : Option Chars
  longitude : Option Chars
  description : Chars

inductive WriteError where
  | identifierConversion
  | decodeFailure

/-- Modelled from the spec: codecs.decode with the configured encoding; the
spec restricts attention to ASCII-compatible encodings ("utf-8" and the
like), for which decoding is total and the identity on ASCII byte strings.
Non-ASCII input is outside the model and maps to none. -/
def codecs_decode (s : Chars) : Option Chars :=
  if isAsciiChars s then some s else none

/-- Modelled from the spec: WriteText of the TextFileOutputModule base class
(not under src/) hands the text to the sink, which accepts text and flushes
in order; the sink state is the text written so far. -/
def WriteText (st : Chars) (s : Chars) : Chars := st ++ s

/-- The five-element tree that WriteEventBody builds with ElementTree.Element
and SubElement: Placemark containing name, description (text plus one
trailing newline) and Point containing coordinates (longitude, comma,
latitude). -/
def placemarkElement (ident description longitude latitude : Chars) : XmlElement :=
  .mk "Placemark".toList []
    []
    [ .mk "name".toList [] ident [],
      .mk "description".toList [] (description ++ ['\n']) [],
      .mk "Point".toList [] []
        [ .mk "coordinates".toList [] (longitude ++ ',' :: latitude) [] ] ]

/-- KMLOutputModule.WriteEventBody: skip the record unless both latitude and
longitude are not None; otherwise build the Placemark tree, serialize it
with ElementTree.tostring, decode with the configured encoding and write the
resulting text. -/
def WriteEventBody (r : EventRecord) (st : Chars) : Except WriteError Chars :=
  match r.latitude, r.longitude with
  | some latitude, some longitude =>
    match r.identifier with
    | none => .error .identifierConversion
    | some ident =>
      let xml_string := ElementTree_tostring
        (placemarkElement ident r.description longitude latitude)
      match codecs_decode xml_string with
      | none => .error .decodeFailure
      | some output_text => .ok (WriteText st output_text)
  | _, _ => .ok st

/-- The exact string KMLOutputModule.WriteHeader formats and writes. -/
def headerXmlString (encoding : Chars) : Chars :=
  "<?xml version=\"1.0\" encoding=\"".toList ++ encoding ++
    "\"?><kml xmlns=\"http://www.opengis.net/kml/2.2\"><Document>".toList

/-- KMLOutputModule.WriteHeader: a single WriteText of the declaration, the
kml open tag and the Document open tag. -/
def WriteHeader (encoding : Chars) (st : Chars) : Chars :=
  WriteText st (headerXmlString encoding)

/-- KMLOutputModule.WriteFooter: a single WriteText closing Document and
kml. -/
def WriteFooter (st : Chars) : Chars :=
  WriteText st "</Document></kml>".toList

/-- Whether WriteEventBody's guard accepts the record: both coordinates are
present (is-not-None), regardless of their rendered values. -/
def placemarkEligible (r : EventRecord) : Bool :=
  r.latitude.isSome && r.longitude.isSome

/-- The Placemark tree an eligible, serializable record produces. -/
def placemarkOf (r : EventRecord) : Option XmlElement :=
  match r.latitude, r.longitude, r.identifier with
  | some latitude, some longitude, some ident =>
      some (placemarkElement ident r.description longitude latitude)
  | _, _, _ => none

/-- One WriteEventBody call per record, in input order (the pipeline's
control flow from the spec: filter on coordinate presence happens inside
WriteEventBody itself). -/
def writeBodies (records : List EventRecord) (st : Chars) : Except WriteError Chars :=
  match records with
  | [] => .ok st
  | r :: rs =>
    match WriteEventBody r st with
    | .error e => .error e
    | .ok st2 => writeBodies rs st2

/-- WriteHeader, one WriteEventBody per record, WriteFooter. -/
def writeKmlDocument (encoding : Chars) (records : List EventRecord) :
    Except WriteError Chars :=
  match writeBodies records (WriteHeader encoding []) with
  | .error e => .error e
  | .ok st => .ok (WriteFooter st)

/-
Conservative model of a standard XML parser, used to state the spec's
parse-back properties.  It accepts a subset of well-formed XML (no comments,
no CDATA sections, double-quoted attributes only, no entity references in
attribute values, no carriage returns, no text between sibling elements) and
on acceptance agrees with a conforming parser; every document the writer
under verification emits falls inside the subset.
-/
def isNameStartChar (c : Char) : Bool := c.isAlpha || c == '_' || c == ':'

def isNameChar (c : Char) : Bool := isNameStartChar c || c.isDigit || c == '-' || c == '.'

/-- A usable XML name: nonempty, valid start character, valid name
characters throughout. -/
def validNameB : Chars → Bool
  | [] => false
  | c :: cs => isNameStartChar c && (c :: cs).all isNameChar

/-- Characters allowed in an XML encoding declaration name. -/
def encNameChar (c : Char) : Bool := c.isAlpha || c.isDigit || c == '.' || c == '_' || c == '-'

/-- A well-formed encoding name per the XML EncName production. -/
def validEncodingName : Chars → Bool
  | [] => false
  | c :: cs => c.isAlpha && cs.all encNameChar

/-- Read a maximal nonempty XML name prefix. -/
def takeName (s : Chars) : Option (Chars × Chars) :=
  match s.takeWhile isNameChar with
  | [] => none
  | c :: cs => if isNameStartChar c then some (c :: cs, s.dropWhile isNameChar) else none

/-- Characters the parser model accepts raw inside a double-quoted
attribute value. -/
def attrValChar (c : Char) : Bool :=
  xmlValidChar c && c != '"' && c != '<' && c != '&'

/-- Parse a (possibly empty) attribute list, stopping in front of the '>' or
'/>' that closes the open tag. -/
def parseAttrList : Nat → Chars → Option (List (Chars × Chars) × Chars)
  | 0, _ => none
  | fuel + 1, s =>
    let s1 := s.dropWhile (fun c => c == ' ')
    match s1 with
    | '/' :: _ => some ([], s1)
    | '>' :: _ => some ([], s1)
    | _ =>
      match takeName s1 with
      | none => none
      | some (k, r1) =>
        match r1 with
        | '=' :: '"' :: r2 =>
          let v := r2.takeWhile attrValChar
          match r2.dropWhile attrValChar with
          | '"' :: r3 =>
            match parseAttrList fuel r3 with
            | none => none
            | some (rest, r4) => some ((k, v) :: rest, r4)
          | _ => none
        | _ => none

/-- Decode the decimal character reference body following "&#": digits, a
semicolon, and the code point must denote an XML-valid character. -/
def parseCharRef (s : Chars) : Option (Char × Chars) :=
  match s.takeWhile Char.isDigit with
  | [] => none
  | d :: ds =>
    match s.dropWhile Char.isDigit with
    | ';' :: rest =>
      let n := digitsToNat (d :: ds)
      if _hv : n.isValidChar then
        let c := Char.ofNat n
        if xmlValidChar c then some (c, rest) else none
      else none
    | _ => none

/-- Decode one entity or character reference body (the part after '&'). -/
def parseEntity (s : Chars) : Option (Char × Chars) :=
  match s with
  | 'a' :: 'm' :: 'p' :: ';' :: r => some ('&', r)
  | 'l' :: 't' :: ';' :: r => some ('<', r)
  | 'g' :: 't' :: ';' :: r => some ('>', r)
  | 'q' :: 'u' :: 'o' :: 't' :: ';' :: r => some ('"', r)
  | 'a' :: 'p' :: 'o' :: 's' :: ';' :: r => some (Char.ofNat 39, r)
  | '#' :: r => parseCharRef r
  | _ => none

/-- Decode raw character data: entity references become their characters,
every raw character must be XML-valid.  Fuel decreases once per produced
character, so the input length is always enough fuel. -/
def unescapeAux : Nat → Chars → Option Chars
  | _, [] => some []
  | 0, _ :: _ => none
  | fuel + 1, c :: r =>
    if c = '&' then
      match parseEntity r with
      | none => none
      | some (d, r2) =>
        match unescapeAux fuel r2 with
        | none => none
        | some t => some (d :: t)
    else if xmlValidChar c then
      match unescapeAux fuel r with
      | none => none
      | some t => some (c :: t)
    else none

def unescapeText (s : Chars) : Option Chars := unescapeAux s.length s

/-- Raw text runs up to the next markup start. -/
def contentChar (c : Char) : Bool := c != '<'

/-- Parse the character data in front of the next tag. -/
def parseContentText (s : Chars) : Option (Chars × Chars) :=
  match unescapeText (s.takeWhile contentChar) with
  | none => none
  | some t => some (t, s.dropWhile contentChar)

/-- Require the given literal characters as a prefix. -/
def expectChars (pat : Chars) (s : Chars) : Option Chars :=
  if s.take pat.length = pat then some (s.drop pat.length) else none

mutual

/-- Parse one element: open tag with attributes, then either a self-closing
slash or text content followed by child elements and the matching close
tag.  Text between or after child elements is rejected (the writer never
produces it). -/
def parseElement : Nat → Chars → Option (XmlElement × Chars)
  | 0, _ => none
  | fuel + 1, s =>
    match s with
    | '<' :: s1 =>
      match takeName s1 with
      | none => none
      | some (tag, s2) =>
        match parseAttrList (s2.length + 1) s2 with
        | none => none
        | some (attrs, s3) =>
          match s3 with
          | '/' :: '>' :: s4 => some (.mk tag attrs [] [], s4)
          | '>' :: s4 =>
            match parseContentText s4 with
            | none => none
            | some (text, s5) =>
              match parseChildren fuel s5 with
              | none => none
              | some (children, s6) =>
                match expectChars ('<' :: '/' :: tag ++ ['>']) s6 with
                | none => none
                | some s7 => some (.mk tag attrs text children, s7)
          | _ => none
    | _ => none

/-- Parse sibling elements until a close tag comes up. -/
def parseChildren : Nat → Chars → Option (List XmlElement × Chars)
  | 0, _ => none
  | fuel + 1, s =>
    match s with
    | '<' :: c :: r =>
      if c = '/' then some ([], '<' :: c :: r)
      else
        match parseElement fuel ('<' :: c :: r) with
        | none => none
        | some (e, s2) =>
          match parseChildren fuel s2 with
          | none => none
          | some (es, s3) => some (e :: es, s3)
    | _ => none

end

/-- Parse an XML declaration: the literal version part, an optional encoding
declaration with a well-formed name, then the closing "?>". -/
def parseXmlDecl (s : Chars) : Option Chars :=
  match expectChars "<?xml version=\"1.0\"".toList s with
  | none => none
  | some r =>
    match expectChars " encoding=\"".toList r with
    | some r2 =>
      match takeName r2 with
      | none => none
      | some (name, r3) =>
        if validEncodingName name then
          match r3 with
          | '"' :: '?' :: '>' :: rest => some rest
          | _ => none
        else none
    | none =>
      match expectChars "?>".toList r with
      | none => none
      | some rest => some rest

/-- Parse a whole document: declaration, one root element, nothing after. -/
def parseDocument (s : Chars) : Option XmlElement :=
  match parseXmlDecl s with
  | none => none
  | some r =>
    match parseElement (r.length + 1) r with
    | some (root, []) => some root
    | _ => none

/-- Parse a standalone fragment: one element, nothing after. -/
def parseFragment (s : Chars) : Option XmlElement :=
  match parseElement (s.length + 1) s with
  | some (e, []) => some e
  | _ => none

mutual

/-- Elements the round-trip theorems quantify over: usable tag name, no
attributes (WriteEventBody never sets any), XML-valid text, and the same
recursively for the children. -/
def validElementB : XmlElement → Bool
  | .mk tag attrs text children =>
    validNameB tag && attrs.isEmpty && validTextChars text && validForestB children

def validForestB : List XmlElement → Bool
  | [] => true
  | e :: es => validElementB e && validForestB es

end

mutual

/-- Recursion depth the parser needs for an element. -/
def depthE : XmlElement → Nat
  | .mk _ _ _ children => depthF children + 1

/-- Recursion depth the parser needs for a sibling list. -/
def depthF : List XmlElement → Nat
  | [] => 1
  | e :: es => max (depthE e) (depthF es) + 1

end

/-- Records whose relevant strings are XML-valid and, when eligible, whose
identifier conversion succeeds. -/
def serializableRecord (r : EventRecord) : Bool :=
  match r.latitude, r.longitude with
  | some latitude, some longitude =>
    r.identifier.isSome && validTextChars (r.identifier.getD []) &&
    validTextChars r.description && validTextChars latitude && validTextChars longitude
  | _, _ => true

/-- The Placemark trees of the eligible records, in input order. -/
def placemarksOf (records : List EventRecord) : List XmlElement :=
  records.filterMap placemarkOf

/-- The xmlns attribute value of the kml root element written by
WriteHeader. -/
def kmlXmlnsUrl : Chars := "http://www.opengis.net/kml/2.2".toList

/-- The element tree a conforming parser recovers from a full document
written for the given Placemark list. -/
def kmlDocRoot (pms : List XmlElement) : XmlElement :=
  .mk "kml".toList [("xmlns".toList, kmlXmlnsUrl)] []
    [.mk "Document".toList [] [] pms]

/-- The kml open tag plus Document open tag, the non-declaration part of the
header. -/
def kmlOpenChars : Chars :=
  "<kml xmlns=\"http://www.opengis.net/kml/2.2\"><Document>".toList

/-- Modelled from the spec: the surrounding writer (the output engine is not
under src/) numbers records by position, treats a per-record serialization
failure as skip-and-continue unless strict mode is configured, and in strict
mode aborts the whole write with an error carrying the failing record's
position in the stream. -/
def writeRecordsWithPolicy (strict : Bool) : List EventRecord → Nat → Chars → Except Nat Chars
  | [], _, st => .ok st
  | r :: rs, pos, st =>
    match WriteEventBody r st with
    | .ok st2 => writeRecordsWithPolicy strict rs (pos + 1) st2
    | .error _ =>
      if strict then .error pos
      else writeRecordsWithPolicy strict rs (pos + 1) st

def sampleEligibleRecord : EventRecord :=
  ⟨some "E1".toList, some "37.42".toList, some "-122.08".toList, "Home".toList⟩

def sampleIneligibleRecord : EventRecord :=
  ⟨none, none, none, "NoGeo".toList⟩

def sampleRecords : List EventRecord := [sampleEligibleRecord, sampleIneligibleRecord]

/-- The text of the coordinates leaf inside a Placemark-shaped tree. -/
def coordinatesTextOf (e : XmlElement) : Option Chars :=
  match e.children with
  | [_, _, XmlElement.mk _ _ _ [XmlElement.mk _ _ ctext _]] => some ctext
  | _ => none

/-- The XML declaration of the spec's wire contract, separated out to check
the header against it. -/
def xmlDeclaration (encoding : Chars) : Chars :=
  "<?xml version=\"1.0\" encoding=\"".toList ++ encoding ++ "\"?>".toList

/-- The opening kml root tag with the KML 2.2 namespace. -/
def kmlOpenTag : Chars := "<kml xmlns=\"http://www.opengis.net/kml/2.2\">".toList

/-- The opening Document container tag. -/
def documentOpenTag : Chars := "<Document>".toList

def sampleBadRecord : EventRecord :=
  ⟨none, some "1.0".toList, some "2.0".toList, "bad".toList⟩

def sampleZeroRecord : EventRecord :=
  ⟨some "E0".toList, some "0.0".toList, some "0.0".toList, "origin".toList⟩

/-- A decoding function that is total and the identity on ASCII input, the
defining property of decoding with an ASCII-compatible encoding. -/
def AsciiCompatibleDecode (dec : Chars → Option Chars) : Prop :=
  ∀ s, isAsciiChars s = true → dec s = some s

/- Basic list-scanning lemmas used by the round-trip development. -/
theorem takeWhile_append_all {p : Char → Bool} (xs ys : Chars) (h : xs.all p = true) :
    (xs ++ ys).takeWhile p = xs ++ ys.takeWhile p := by
  induction xs with
  | nil => simp
  | cons a l ih => simp_all [List.takeWhile_cons]

theorem dropWhile_append_all {p : Char → Bool} (xs ys : Chars) (h : xs.all p = true) :
    (xs ++ ys).dropWhile p = ys.dropWhile p := by
  induction xs with
  | nil => simp
  | cons a l ih => simp_all [List.dropWhile_cons]

theorem takeWhile_append_stop {p : Char → Bool} (xs : Chars) (c : Char) (ys : Chars)
    (h : xs.all p = true) (hc : p c = false) :
    (xs ++ c :: ys).takeWhile p = xs := by
  rw [takeWhile_append_all xs (c :: ys) h, List.takeWhile_cons_of_neg (by simp [hc])]
  simp

theorem dropWhile_append_stop {p : Char → Bool} (xs : Chars) (c : Char) (ys : Chars)
    (h : xs.all p = true) (hc : p c = false) :
    (xs ++ c :: ys).dropWhile p = c :: ys := by
  rw [dropWhile_append_all xs (c :: ys) h, List.dropWhile_cons_of_neg (by simp [hc])]

theorem expectChars_append (pat rest : Chars) : expectChars pat (pat ++ rest) = some rest := by
  unfold expectChars
  rw [List.take_left, List.drop_left]
  simp

theorem takeName_eq {tag : Chars} (c : Char) (rest : Chars)
    (h : validNameB tag = true) (hc : isNameChar c = false) :
    takeName (tag ++ c :: rest) = some (tag, c :: rest) := by
  match tag, h with
  | t :: ts, h =>
    have hall : (t :: ts).all isNameChar = true := by
      simp only [validNameB, Bool.and_eq_true] at h
      exact h.2
    have hstart : isNameStartChar t = true := by
      simp only [validNameB, Bool.and_eq_true] at h
      exact h.1
    unfold takeName
    rw [takeWhile_append_stop _ _ _ hall hc, dropWhile_append_stop _ _ _ hall hc]
    simp [hstart]

theorem digitChar_isDigit {n : Nat} (h : n < 10) : (Nat.digitChar n).isDigit = true := by
  interval_cases n <;> decide

theorem digitVal_digitChar {n : Nat} (h : n < 10) : digitVal (Nat.digitChar n) = n := by
  interval_cases n <;> decide

theorem digitChar_ascii {n : Nat} (h : n < 10) : (Nat.digitChar n).toNat ≤ 127 := by
  interval_cases n <;> decide

theorem decimalDigitsAux_all_digit (fuel n : Nat) :
    (decimalDigitsAux fuel n).all Char.isDigit = true := by
  induction fuel generalizing n with
  | zero => simp [decimalDigitsAux]
  | succ f ih =>
    unfold decimalDigitsAux
    by_cases h : n < 10
    · simp [h, digitChar_isDigit h]
    · simp only [h, if_false, List.all_append, Bool.and_eq_true]
      exact ⟨ih (n / 10), by simp [digitChar_isDigit (Nat.mod_lt n (by norm_num))]⟩

theorem decimalDigitsAux_ne_nil (fuel n : Nat) (hf : 0 < fuel) :
    decimalDigitsAux fuel n ≠ [] := by
  match fuel, hf with
  | f + 1, _ =>
    unfold decimalDigitsAux
    by_cases h : n < 10 <;> simp [h]

theorem digitsToNat_append_singleton (ds : Chars) (c : Char) :
    digitsToNat (ds ++ [c]) = 10 * digitsToNat ds + digitVal c := by
  unfold digitsToNat
  rw [List.foldl_append]
  rfl

theorem digitsToNat_decimalDigitsAux (fuel n : Nat) (h : n < 10 ^ fuel) :
    digitsToNat (decimalDigitsAux fuel n) = n := by
  induction fuel generalizing n with
  | zero =>
    simp only [pow_zero, Nat.lt_one_iff] at h
    simp [decimalDigitsAux, digitsToNat, h]
  | succ f ih =>
    unfold decimalDigitsAux
    by_cases hn : n < 10
    · simp [hn, digitsToNat, digitVal_digitChar hn]
    · rw [if_neg hn, digitsToNat_append_singleton,
        ih (n / 10) (by
          rw [Nat.div_lt_iff_lt_mul (by norm_num)]
          calc n < 10 ^ (f + 1) := h
            _ = 10 ^ f * 10 := by ring),
        digitVal_digitChar (Nat.mod_lt n (by norm_num))]
      omega

theorem digitsToNat_decimalDigits {n : Nat} (h : n < 100000000) :
    digitsToNat (decimalDigits n) = n :=
  digitsToNat_decimalDigitsAux 8 n (by norm_num; omega)

/- Escaping facts. -/
theorem escape_cdata_cons (c : Char) (s : Chars) :
    escape_cdata (c :: s) = escapeChar c ++ escape_cdata s := rfl

theorem one_le_escapeChar_length (c : Char) : 1 ≤ (escapeChar c).length := by
  unfold escapeChar
  split_ifs <;> simp

theorem length_le_escape (s : Chars) : s.length ≤ (escape_cdata s).length := by
  induction s with
  | nil => simp [escape_cdata]
  | cons c t ih =>
    rw [escape_cdata_cons, List.length_append, List.length_cons]
    have := one_le_escapeChar_length c
    omega

theorem char_toNat_lt (c : Char) : c.toNat < 100000000 := by
  have h : Nat.isValidChar c.toNat := c.valid
  unfold Nat.isValidChar at h
  rcases h with h | h <;> omega

theorem digit_contentChar {c : Char} (h : c.isDigit = true) : contentChar c = true := by
  by_contra hc
  have hlt : c = '<' := by
    simpa [contentChar] using hc
  rw [hlt] at h
  exact absurd h (by decide)

theorem all_digit_contentChar {l : Chars} (h : l.all Char.isDigit = true) :
    l.all contentChar = true := by
  induction l with
  | nil => rfl
  | cons c t ih =>
    simp only [List.all_cons, Bool.and_eq_true] at h ⊢
    exact ⟨digit_contentChar h.1, ih h.2⟩

theorem escapeChar_no_lt (c : Char) : (escapeChar c).all contentChar = true := by
  unfold escapeChar
  split_ifs with h1 h2 h3 h4
  · decide
  · decide
  · decide
  · simp only [List.all_cons, Bool.and_eq_true, List.all_append]
    refine ⟨by decide, by decide, ?_, by decide⟩
    exact all_digit_contentChar (decimalDigitsAux_all_digit 8 c.toNat)
  · simp only [List.all_cons, List.all_nil, Bool.and_true]
    simp [contentChar]
    intro hc
    rw [hc] at h2
    exact h2 rfl

theorem escape_cdata_no_lt (s : Chars) : (escape_cdata s).all contentChar = true := by
  induction s with
  | nil => rfl
  | cons c t ih =>
    rw [escape_cdata_cons]
    simp only [List.all_append, Bool.and_eq_true]
    exact ⟨escapeChar_no_lt c, ih⟩

theorem digit_ascii {c : Char} (h : c.isDigit = true) : c.toNat ≤ 127 := by
  simp only [Char.isDigit, decide_eq_true_eq, Bool.and_eq_true, decide_eq_true_iff] at h
  have h1 : c.toNat ≤ 57 := by
    have := h.2
    simpa [Char.le_def] using this
  omega

theorem all_digit_ascii {l : Chars} (h : l.all Char.isDigit = true) :
    l.all (fun c => c.toNat ≤ 127) = true := by
  induction l with
  | nil => rfl
  | cons c t ih =>
    simp only [List.all_cons, Bool.and_eq_true] at h ⊢
    exact ⟨by simpa using digit_ascii h.1, ih h.2⟩

theorem escapeChar_ascii (c : Char) : (escapeChar c).all (fun c => c.toNat ≤ 127) = true := by
  unfold escapeChar
  split_ifs with h1 h2 h3 h4
  · decide
  · decide
  · decide
  · simp only [List.all_cons, Bool.and_eq_true, List.all_append]
    refine ⟨by decide, by decide, ?_, by decide⟩
    exact all_digit_ascii (decimalDigitsAux_all_digit 8 c.toNat)
  · simp only [not_le] at h4
    simp only [List.all_cons, List.all_nil, Bool.and_true, decide_eq_true_eq]
    omega

theorem escape_cdata_ascii (s : Chars) : isAsciiChars (escape_cdata s) = true := by
  unfold isAsciiChars
  induction s with
  | nil => rfl
  | cons c t ih =>
    rw [escape_cdata_cons]
    simp only [List.all_append, Bool.and_eq_true]
    exact ⟨escapeChar_ascii c, ih⟩

/- Unescaping inverts escaping. -/
theorem parseCharRef_decimal (c : Char) (hval : xmlValidChar c = true) (rest : Chars) :
    parseCharRef (decimalDigits c.toNat ++ ';' :: rest) = some (c, rest) := by
  have hall : (decimalDigits c.toNat).all Char.isDigit = true :=
    decimalDigitsAux_all_digit 8 c.toNat
  have hne : decimalDigits c.toNat ≠ [] :=
    decimalDigitsAux_ne_nil 8 c.toNat (by norm_num)
  obtain ⟨d, ds, hd⟩ : ∃ d ds, decimalDigits c.toNat = d :: ds := by
    cases hdd : decimalDigits c.toNat with
    | nil => exact absurd hdd hne
    | cons d ds => exact ⟨d, ds, rfl⟩
  unfold parseCharRef
  rw [takeWhile_append_stop _ _ _ hall (by decide),
    dropWhile_append_stop _ _ _ hall (by decide), hd]
  simp only
  rw [← hd, digitsToNat_decimalDigits (char_toNat_lt c),
    dif_pos (show Nat.isValidChar c.toNat from c.valid),
    Char.ofNat_toNat, if_pos hval]

theorem unescapeAux_escape (s : Chars) (h : validTextChars s = true) :
    ∀ fuel, s.length ≤ fuel → unescapeAux fuel (escape_cdata s) = some s := by
  induction s with
  | nil =>
    intro fuel _
    show unescapeAux fuel [] = some []
    cases fuel <;> rfl
  | cons c t ih =>
    intro fuel hf
    simp only [validTextChars, List.all_cons, Bool.and_eq_true] at h
    obtain ⟨hc, ht⟩ := h
    obtain ⟨f, rfl⟩ : ∃ f, fuel = f + 1 := by
      cases fuel with
      | zero => simp at hf
      | succ f => exact ⟨f, rfl⟩
    have hlen : t.length ≤ f := by
      simp only [List.length_cons] at hf
      omega
    rw [escape_cdata_cons]
    unfold escapeChar
    split_ifs with h1 h2 h3 h4
    · subst h1
      show unescapeAux (f + 1) ('&' :: 'a' :: 'm' :: 'p' :: ';' :: escape_cdata t) = _
      simp [unescapeAux, parseEntity, ih ht f hlen]
    · subst h2
      show unescapeAux (f + 1) ('&' :: 'l' :: 't' :: ';' :: escape_cdata t) = _
      simp [unescapeAux, parseEntity, ih ht f hlen]
    · subst h3
      show unescapeAux (f + 1) ('&' :: 'g' :: 't' :: ';' :: escape_cdata t) = _
      simp [unescapeAux, parseEntity, ih ht f hlen]
    · show unescapeAux (f + 1)
        ('&' :: '#' :: (decimalDigits c.toNat ++ [';']) ++ escape_cdata t) = _
      simp only [List.cons_append, List.append_assoc, List.singleton_append]
      simp [unescapeAux, parseEntity, parseCharRef_decimal c hc, ih ht f hlen]
    · show unescapeAux (f + 1) (c :: escape_cdata t) = _
      rw [unescapeAux.eq_def]
      simp only
      rw [if_neg h1, if_pos hc, ih ht f hlen]

theorem unescapeText_escape (s : Chars) (h : validTextChars s = true) :
    unescapeText (escape_cdata s) = some s :=
  unescapeAux_escape s h _ (length_le_escape s)

theorem parseContentText_escape (s : Chars) (h : validTextChars s = true) (r : Chars) :
    parseContentText (escape_cdata s ++ '<' :: r) = some (s, '<' :: r) := by
  unfold parseContentText
  rw [takeWhile_append_stop _ _ _ (escape_cdata_no_lt s) (by decide),
    dropWhile_append_stop _ _ _ (escape_cdata_no_lt s) (by decide),
    unescapeText_escape s h]

theorem serializeXml_shape (e : XmlElement) (h : validElementB e = true) :
    ∃ c r, serializeXml e = '<' :: c :: r ∧ isNameStartChar c = true := by
  match e with
  | .mk tag attrs text children =>
    have hname : validNameB tag = true := by
      simp only [validElementB, Bool.and_eq_true] at h
      exact h.1.1.1
    cases tag with
    | nil => simp [validNameB] at hname
    | cons t ts =>
      have hstart : isNameStartChar t = true := by
        simp only [validNameB, Bool.and_eq_true] at hname
        exact hname.1
      unfold serializeXml
      by_cases hempty : text.isEmpty && children.isEmpty
      · rw [if_pos hempty]
        refine ⟨t, ts ++ (serializeAttrs attrs ++ " />".toList), ?_, hstart⟩
        simp [List.cons_append, List.append_assoc]
      · rw [if_neg hempty]
        refine ⟨t, ts ++ (serializeAttrs attrs ++ '>' ::
          (escape_cdata text ++ serializeForest children ++ ('<' :: '/' :: (t :: ts) ++ ['>']))), ?_, hstart⟩
        simp [List.cons_append, List.append_assoc]

theorem parseAttrList_slash (n : Nat) (r : Chars) :
    parseAttrList (n + 1) (' ' :: '/' :: r) = some ([], '/' :: r) := by
  rw [parseAttrList]
  simp [List.dropWhile_cons]

theorem parseAttrList_gt (n : Nat) (r : Chars) :
    parseAttrList (n + 1) ('>' :: r) = some ([], '>' :: r) := by
  rw [parseAttrList]
  simp [List.dropWhile_cons]

theorem depthE_pos (e : XmlElement) : 1 ≤ depthE e := by
  cases e with
  | mk t a x cs => simp [depthE]

theorem depthF_pos (es : List XmlElement) : 1 ≤ depthF es := by
  cases es <;> simp [depthF]

/-- Joint round-trip statement for the parser model against the ElementTree
serializer: with enough fuel, parsing a serialized valid element (or sibling
list) consumes exactly the serialized characters and rebuilds the same
tree. -/
theorem parse_serialize_both : ∀ fuel : Nat,
    (∀ e rest, validElementB e = true → depthE e ≤ fuel →
      parseElement fuel (serializeXml e ++ rest) = some (e, rest)) ∧
    (∀ es rest r2, validForestB es = true → depthF es ≤ fuel →
      rest = '<' :: '/' :: r2 →
      parseChildren fuel (serializeForest es ++ rest) = some (es, rest)) := by
  intro fuel
  induction fuel with
  | zero =>
    constructor
    · intro e rest _ hd
      have := depthE_pos e
      omega
    · intro es rest r2 _ hd _
      have := depthF_pos es
      omega
  | succ f ih =>
    obtain ⟨ihE, ihF⟩ := ih
    constructor
    · intro e rest hv hd
      match e with
      | .mk tag attrs text children =>
        simp only [validElementB, Bool.and_eq_true] at hv
        obtain ⟨⟨⟨hname, hattrs⟩, htext⟩, hchildren⟩ := hv
        have hattrs0 : attrs = [] := by simpa using hattrs
        subst hattrs0
        have hdepth : depthF children ≤ f := by
          simp only [depthE] at hd
          omega
        cases tag with
        | nil => simp [validNameB] at hname
        | cons t ts =>
          by_cases hempty : text.isEmpty && children.isEmpty
          · obtain ⟨htext0, hch0⟩ : text = [] ∧ children = [] := by
              simp only [Bool.and_eq_true, List.isEmpty_iff] at hempty
              exact hempty
            subst htext0
            subst hch0
            have hinput : serializeXml (.mk (t :: ts) [] [] []) ++ rest
                = '<' :: ((t :: ts) ++ ' ' :: '/' :: '>' :: rest) := by
              unfold serializeXml
              rw [if_pos (by decide)]
              simp [serializeAttrs, List.cons_append, List.append_assoc]
            rw [hinput, parseElement.eq_def]
            simp only
            rw [takeName_eq ' ' ('/' :: '>' :: rest) hname (by decide)]
            simp only
            rw [parseAttrList_slash]
            rfl
          · have hinput : serializeXml (.mk (t :: ts) [] text children) ++ rest
                = '<' :: ((t :: ts) ++ '>' ::
                  (escape_cdata text ++ (serializeForest children ++
                    ('<' :: '/' :: ((t :: ts) ++ '>' :: rest))))) := by
              unfold serializeXml
              rw [if_neg hempty]
              simp [serializeAttrs, List.cons_append, List.append_assoc]
            obtain ⟨y, hy⟩ : ∃ y,
                serializeForest children ++ ('<' :: '/' :: ((t :: ts) ++ '>' :: rest))
                  = '<' :: y := by
              cases children with
              | nil => exact ⟨_, rfl⟩
              | cons c1 cs =>
                have hv1 : validElementB c1 = true := by
                  simp only [validForestB, Bool.and_eq_true] at hchildren
                  exact hchildren.1
                obtain ⟨d, r0, hshape, _⟩ := serializeXml_shape c1 hv1
                refine ⟨d :: (r0 ++ (serializeForest cs ++
                  ('<' :: '/' :: ((t :: ts) ++ '>' :: rest)))), ?_⟩
                rw [serializeForest, hshape]
                simp [List.cons_append, List.append_assoc]
            rw [hinput, parseElement.eq_def]
            simp only
            rw [takeName_eq '>' _ hname (by decide)]
            simp only
            rw [parseAttrList_gt]
            simp only
            rw [hy, parseContentText_escape text htext y]
            simp only
            rw [← hy,
              ihF children ('<' :: '/' :: ((t :: ts) ++ '>' :: rest)) ((t :: ts) ++ '>' :: rest)
                hchildren hdepth rfl]
            simp only
            have hclose : '<' :: '/' :: ((t :: ts) ++ '>' :: rest)
                = ('<' :: '/' :: (t :: ts) ++ ['>']) ++ rest := by
              simp [List.cons_append, List.append_assoc]
            rw [hclose, expectChars_append]
    · intro es rest r2 hv hd hrest
      cases es with
      | nil =>
        subst hrest
        rw [serializeForest, List.nil_append, parseChildren.eq_def]
        simp
      | cons e1 tl =>
        simp only [validForestB, Bool.and_eq_true] at hv
        obtain ⟨hv1, hvtl⟩ := hv
        have hdepths : depthE e1 ≤ f ∧ depthF tl ≤ f := by
          simp only [depthF] at hd
          constructor
          · have h1 : depthE e1 ≤ max (depthE e1) (depthF tl) := Nat.le_max_left _ _
            omega
          · have h2 : depthF tl ≤ max (depthE e1) (depthF tl) := Nat.le_max_right _ _
            omega
        obtain ⟨d, r0, hshape, hdstart⟩ := serializeXml_shape e1 hv1
        have hdne : d ≠ '/' := by
          intro hcontra
          rw [hcontra] at hdstart
          exact absurd hdstart (by decide)
        have hinput : serializeForest (e1 :: tl) ++ rest
            = '<' :: d :: (r0 ++ (serializeForest tl ++ rest)) := by
          rw [serializeForest, hshape]
          simp [List.cons_append, List.append_assoc]
        rw [hinput, parseChildren.eq_def]
        simp only
        rw [if_neg hdne]
        have hback : '<' :: d :: (r0 ++ (serializeForest tl ++ rest))
            = serializeXml e1 ++ (serializeForest tl ++ rest) := by
          rw [hshape]
          simp [List.cons_append]
        rw [hback, ihE e1 _ hv1 hdepths.1]
        simp only
        rw [ihF tl rest r2 hvtl hdepths.2 hrest]

theorem parseElement_serialize (e : XmlElement) (rest : Chars) (fuel : Nat)
    (hv : validElementB e = true) (hd : depthE e ≤ fuel) :
    parseElement fuel (serializeXml e ++ rest) = some (e, rest) :=
  (parse_serialize_both fuel).1 e rest hv hd

theorem parseChildren_serialize (es : List XmlElement) (r2 : Chars) (fuel : Nat)
    (hv : validForestB es = true) (hd : depthF es ≤ fuel) :
    parseChildren fuel (serializeForest es ++ ('<' :: '/' :: r2)) = some (es, '<' :: '/' :: r2) :=
  (parse_serialize_both fuel).2 es _ r2 hv hd rfl

theorem depthE_placemark (i d lo la : Chars) : depthE (placemarkElement i d lo la) = 8 := rfl

theorem serializeXml_length_pos (e : XmlElement) : 1 ≤ (serializeXml e).length := by
  cases e with
  | mk tag attrs text children =>
    unfold serializeXml
    split_ifs <;> simp

theorem serializeForest_length (es : List XmlElement) :
    es.length ≤ (serializeForest es).length := by
  induction es with
  | nil => simp [serializeForest]
  | cons e tl ih =>
    rw [serializeForest]
    simp only [List.length_append, List.length_cons]
    have := serializeXml_length_pos e
    omega

theorem depthF_le (es : List XmlElement) (h : ∀ e ∈ es, depthE e ≤ 8) :
    depthF es ≤ es.length + 8 := by
  induction es with
  | nil =>
    have : depthF ([] : List XmlElement) = 1 := rfl
    omega
  | cons e tl ih =>
    have hcons : depthF (e :: tl) = max (depthE e) (depthF tl) + 1 := rfl
    have h1 : depthE e ≤ 8 := h e (by simp)
    have h2 : depthF tl ≤ tl.length + 8 := ih (fun x hx => h x (by simp [hx]))
    have hmax : max (depthE e) (depthF tl) ≤ tl.length + 8 :=
      Nat.max_le.mpr ⟨by omega, h2⟩
    simp only [List.length_cons]
    omega

theorem placemark_valid (i d lo la : Chars)
    (hi : validTextChars i = true) (hd : validTextChars d = true)
    (hlo : validTextChars lo = true) (hla : validTextChars la = true) :
    validElementB (placemarkElement i d lo la) = true := by
  have hnl : validTextChars (d ++ ['\n']) = true := by
    simp only [validTextChars, List.all_append] at *
    simp [hd]
    decide
  have hco : validTextChars (lo ++ ',' :: la) = true := by
    simp only [validTextChars, List.all_append, List.all_cons] at *
    simp [hlo, hla]
    decide
  unfold placemarkElement
  simp only [validElementB, validForestB, Bool.and_eq_true]
  refine ⟨⟨⟨by decide, by decide⟩, by decide⟩, ?_⟩
  refine ⟨⟨⟨⟨by decide, by decide⟩, hi⟩, by decide⟩, ?_⟩
  refine ⟨⟨⟨⟨by decide, by decide⟩, hnl⟩, by decide⟩, ?_⟩
  refine ⟨⟨⟨⟨by decide, by decide⟩, by decide⟩, ?_⟩, by decide⟩
  refine ⟨⟨⟨⟨by decide, by decide⟩, hco⟩, by decide⟩, by decide⟩

theorem escape_cdata_all_ascii (s : Chars) :
    (escape_cdata s).all (fun c => c.toNat ≤ 127) = true := escape_cdata_ascii s

theorem tostring_placemark_ascii (i d lo la : Chars) :
    isAsciiChars (ElementTree_tostring (placemarkElement i d lo la)) = true := by
  unfold ElementTree_tostring placemarkElement
  by_cases hi : i.isEmpty
  · simp [serializeXml, serializeForest, serializeAttrs, hi, isAsciiChars,
      List.all_append, List.all_cons, escape_cdata_all_ascii]
  · simp [serializeXml, serializeForest, serializeAttrs, hi, isAsciiChars,
      List.all_append, List.all_cons, escape_cdata_all_ascii]

theorem tostring_placemark_length (i d lo la : Chars) :
    7 ≤ (ElementTree_tostring (placemarkElement i d lo la)).length := by
  unfold ElementTree_tostring placemarkElement
  unfold serializeXml
  rw [if_neg (by simp)]
  have h9 : ("Placemark".toList).length = 9 := by decide
  simp only [List.length_cons, List.length_append, h9]
  omega

theorem parseFragment_placemark (i d lo la : Chars)
    (hi : validTextChars i = true) (hd : validTextChars d = true)
    (hlo : validTextChars lo = true) (hla : validTextChars la = true) :
    parseFragment (ElementTree_tostring (placemarkElement i d lo la))
      = some (placemarkElement i d lo la) := by
  unfold parseFragment
  have hv := placemark_valid i d lo la hi hd hlo hla
  have hlen := tostring_placemark_length i d lo la
  have hparse := parseElement_serialize (placemarkElement i d lo la) []
    ((ElementTree_tostring (placemarkElement i d lo la)).length + 1) hv
    (by rw [depthE_placemark]; omega)
  rw [List.append_nil] at hparse
  simp only [ElementTree_tostring] at *
  rw [hparse]

theorem WriteEventBody_eligible (r : EventRecord) (st : Chars)
    (lat lon i : Chars)
    (hlat : r.latitude = some lat) (hlon : r.longitude = some lon)
    (hid : r.identifier = some i) :
    WriteEventBody r st =
      .ok (st ++ ElementTree_tostring (placemarkElement i r.description lon lat)) := by
  unfold WriteEventBody
  rw [hlat, hlon, hid]
  simp only [codecs_decode, tostring_placemark_ascii, if_pos]
  rfl

theorem WriteEventBody_skip (r : EventRecord) (st : Chars)
    (h : r.latitude = none ∨ r.longitude = none) :
    WriteEventBody r st = .ok st := by
  unfold WriteEventBody
  rcases h with h | h
  · rw [h]
  · rw [h]
    cases r.latitude <;> rfl

theorem writeBodies_ok (records : List EventRecord)
    (h : records.all serializableRecord = true) (st : Chars) :
    writeBodies records st = .ok (st ++ serializeForest (placemarksOf records)) := by
  induction records generalizing st with
  | nil =>
    simp [writeBodies, placemarksOf, List.filterMap, serializeForest]
  | cons r rs ih =>
    simp only [List.all_cons, Bool.and_eq_true] at h
    obtain ⟨hr, hrs⟩ := h
    rw [writeBodies]
    cases hlat : r.latitude with
    | none =>
      rw [WriteEventBody_skip r st (Or.inl hlat)]
      simp only
      rw [ih hrs st]
      have hpm : placemarkOf r = none := by
        unfold placemarkOf
        rw [hlat]
      simp [placemarksOf, List.filterMap_cons, hpm]
    | some lat =>
      cases hlon : r.longitude with
      | none =>
        rw [WriteEventBody_skip r st (Or.inr hlon)]
        simp only
        rw [ih hrs st]
        have hpm : placemarkOf r = none := by
          unfold placemarkOf
          rw [hlat, hlon]
        simp [placemarksOf, List.filterMap_cons, hpm]
      | some lon =>
        have hr2 : serializableRecord r = true := hr
        unfold serializableRecord at hr2
        rw [hlat, hlon] at hr2
        simp only [Bool.and_eq_true] at hr2
        obtain ⟨⟨⟨⟨hidsome, _⟩, _⟩, _⟩, _⟩ := hr2
        obtain ⟨i, hi⟩ : ∃ i, r.identifier = some i := Option.isSome_iff_exists.mp hidsome
        rw [WriteEventBody_eligible r st lat lon i hlat hlon hi]
        simp only
        rw [ih hrs _]
        have hpm : placemarkOf r = some (placemarkElement i r.description lon lat) := by
          unfold placemarkOf
          rw [hlat, hlon, hi]
        simp [placemarksOf, List.filterMap_cons, hpm, serializeForest,
          List.append_assoc, ElementTree_tostring]

theorem parseContentText_lt (r : Chars) : parseContentText ('<' :: r) = some ([], '<' :: r) := by
  unfold parseContentText
  rw [List.takeWhile_cons_of_neg (by decide), List.dropWhile_cons_of_neg (by decide)]
  rfl

theorem encNameChar_isNameChar {c : Char} (h : encNameChar c = true) : isNameChar c = true := by
  simp only [encNameChar, Bool.or_eq_true, beq_iff_eq] at h
  simp only [isNameChar, isNameStartChar, Bool.or_eq_true, beq_iff_eq]
  tauto

theorem encName_validNameB {s : Chars} (h : validEncodingName s = true) : validNameB s = true := by
  cases s with
  | nil => simp [validEncodingName] at h
  | cons c cs =>
    simp only [validEncodingName, Bool.and_eq_true] at h
    obtain ⟨hc, hcs⟩ := h
    have hstart : isNameStartChar c = true := by
      simp [isNameStartChar, hc]
    simp only [validNameB, Bool.and_eq_true, List.all_cons]
    refine ⟨hstart, ?_, ?_⟩
    · simp [isNameChar, hstart]
    · induction cs with
      | nil => rfl
      | cons d ds ih =>
        simp only [List.all_cons, Bool.and_eq_true] at hcs ⊢
        exact ⟨encNameChar_isNameChar hcs.1, ih hcs.2⟩

theorem headerXmlString_split (enc : Chars) :
    headerXmlString enc = "<?xml version=\"1.0\" encoding=\"".toList ++ enc
      ++ ('"' :: '?' :: '>' :: kmlOpenChars) := by
  unfold headerXmlString kmlOpenChars
  have h : "\"?><kml xmlns=\"http://www.opengis.net/kml/2.2\"><Document>".toList
      = '"' :: '?' :: '>' :: "<kml xmlns=\"http://www.opengis.net/kml/2.2\"><Document>".toList := by
    decide
  rw [h]

theorem parseXmlDecl_header (enc : Chars) (henc : validEncodingName enc = true) (r : Chars) :
    parseXmlDecl ("<?xml version=\"1.0\" encoding=\"".toList ++ (enc ++ ('"' :: '?' :: '>' :: r)))
      = some r := by
  have hsplit : "<?xml version=\"1.0\" encoding=\"".toList
      = "<?xml version=\"1.0\"".toList ++ " encoding=\"".toList := by decide
  unfold parseXmlDecl
  rw [hsplit]
  rw [List.append_assoc, expectChars_append]
  simp only
  rw [expectChars_append]
  simp only
  rw [takeName_eq '"' ('?' :: '>' :: r) (encName_validNameB henc) (by decide)]
  simp only
  rw [if_pos henc]

theorem parseAttrList_xmlns (n : Nat) (r : Chars) :
    parseAttrList (n + 2)
      (' ' :: ("xmlns".toList ++ ('=' :: '"' :: (kmlXmlnsUrl ++ ('"' :: '>' :: r)))))
      = some ([("xmlns".toList, kmlXmlnsUrl)], '>' :: r) := by
  have hx : "xmlns".toList = ['x', 'm', 'l', 'n', 's'] := by decide
  rw [hx]
  simp only [List.cons_append, List.nil_append]
  rw [parseAttrList]
  rw [List.dropWhile_cons_of_pos (by decide), List.dropWhile_cons_of_neg (by decide)]
  simp only
  have hform : ('x' :: 'm' :: 'l' :: 'n' :: 's' :: '=' :: '"' :: (kmlXmlnsUrl ++ ('"' :: '>' :: r)))
      = (['x', 'm', 'l', 'n', 's'] : Chars) ++ '=' :: '"' :: (kmlXmlnsUrl ++ ('"' :: '>' :: r)) := by
    simp [List.cons_append]
  rw [hform, takeName_eq '=' _ (by decide) (by decide)]
  simp only
  rw [takeWhile_append_stop _ _ _ (by decide) (by decide),
    dropWhile_append_stop _ _ _ (by decide) (by decide)]
  simp only
  rw [parseAttrList_gt, ← hform]
  simp

theorem parseAttrList_xmlns_any (fuel : Nat) (hf : 2 ≤ fuel) (r : Chars) :
    parseAttrList fuel
      (' ' :: ("xmlns".toList ++ ('=' :: '"' :: (kmlXmlnsUrl ++ ('"' :: '>' :: r)))))
      = some ([("xmlns".toList, kmlXmlnsUrl)], '>' :: r) := by
  obtain ⟨n, rfl⟩ : ∃ n, fuel = n + 2 := ⟨fuel - 2, by omega⟩
  exact parseAttrList_xmlns n r

theorem parse_kml (pms : List XmlElement) (hv : validForestB pms = true)
    (h : Nat) (hd : depthF pms ≤ h) :
    parseElement (h + 3) (kmlOpenChars ++ (serializeForest pms ++ "</Document></kml>".toList))
      = some (kmlDocRoot pms, []) := by
  have hopen : kmlOpenChars
      = '<' :: ("kml".toList ++ (' ' :: ("xmlns".toList ++ ('=' :: '"' ::
          (kmlXmlnsUrl ++ ('"' :: '>' :: "<Document>".toList)))))) := by decide
  have hdocopen : "<Document>".toList = '<' :: ("Document".toList ++ ['>']) := by decide
  have hclose : "</Document></kml>".toList
      = '<' :: '/' :: ("Document".toList ++ ('>' :: "</kml>".toList)) := by decide
  have hD : "Document".toList = 'D' :: "ocument".toList := by decide
  rw [hopen]
  simp only [List.cons_append, List.append_assoc]
  rw [parseElement.eq_def]
  simp only
  rw [takeName_eq ' ' _ (by decide) (by decide)]
  simp only
  rw [parseAttrList_xmlns_any _ (by simp)]
  simp only
  rw [hdocopen]
  simp only [List.cons_append, List.append_assoc, List.singleton_append]
  rw [parseContentText_lt]
  simp only
  rw [parseChildren.eq_def]
  simp only
  rw [hD]
  simp only [List.cons_append, List.nil_append]
  rw [if_neg (by decide : ¬ ('D' : Char) = '/')]
  rw [parseElement.eq_def]
  simp only
  have hform2 : ('D' :: ("ocument".toList ++
        ('>' :: (serializeForest pms ++ "</Document></kml>".toList))))
      = "Document".toList ++
        ('>' :: (serializeForest pms ++ "</Document></kml>".toList)) := by
    rw [hD]
    simp [List.cons_append]
  rw [hform2, takeName_eq '>' _ (by decide) (by decide)]
  simp only
  rw [parseAttrList_gt]
  simp only
  obtain ⟨y, hy⟩ : ∃ y,
      serializeForest pms ++ "</Document></kml>".toList = '<' :: y := by
    cases pms with
    | nil =>
      refine ⟨'/' :: ("Document".toList ++ ('>' :: "</kml>".toList)), ?_⟩
      rw [serializeForest, List.nil_append, hclose]
    | cons c1 cs =>
      have hv1 : validElementB c1 = true := by
        simp only [validForestB, Bool.and_eq_true] at hv
        exact hv.1
      obtain ⟨d, r0, hshape, _⟩ := serializeXml_shape c1 hv1
      refine ⟨d :: (r0 ++ (serializeForest cs ++ "</Document></kml>".toList)), ?_⟩
      rw [serializeForest, hshape]
      simp [List.cons_append, List.append_assoc]
  rw [hy, parseContentText_lt]
  simp only
  rw [← hy, hclose, parseChildren_serialize pms _ h hv hd]
  simp only
  have hexp : ('<' :: '/' :: ("Document".toList ++ ('>' :: "</kml>".toList)))
      = ('<' :: '/' :: "Document".toList ++ ['>']) ++ "</kml>".toList := by
    simp [List.cons_append, List.append_assoc]
  rw [hexp, expectChars_append]
  simp only
  have hk : "</kml>".toList = '<' :: '/' :: "kml>".toList := by decide
  rw [hk, parseChildren.eq_def]
  simp only [if_true]
  have hk2 : ('<' :: '/' :: "kml>".toList)
      = ('<' :: '/' :: ("kml".toList ++ ['>'])) ++ ([] : Chars) := by decide
  rw [hk2, expectChars_append]
  simp only
  rfl

theorem placemarkOf_fields {r : EventRecord} {e : XmlElement}
    (hpm : placemarkOf r = some e) (hr : serializableRecord r = true) :
    validElementB e = true ∧ depthE e = 8 := by
  unfold placemarkOf at hpm
  cases hlat : r.latitude with
  | none => rw [hlat] at hpm; cases hpm
  | some lat =>
    cases hlon : r.longitude with
    | none => rw [hlat, hlon] at hpm; cases hpm
    | some lon =>
      cases hid : r.identifier with
      | none => rw [hlat, hlon, hid] at hpm; cases hpm
      | some i =>
        rw [hlat, hlon, hid] at hpm
        simp only [Option.some_inj] at hpm
        unfold serializableRecord at hr
        rw [hlat, hlon, hid] at hr
        simp only [Bool.and_eq_true] at hr
        obtain ⟨⟨⟨⟨_, hiv⟩, hdv⟩, hlatv⟩, hlonv⟩ := hr
        have hiv2 : validTextChars i = true := by simpa using hiv
        rw [← hpm]
        exact ⟨placemark_valid i r.description lon lat hiv2 hdv hlonv hlatv,
          depthE_placemark i r.description lon lat⟩

theorem placemarksOf_valid (records : List EventRecord)
    (h : records.all serializableRecord = true) :
    validForestB (placemarksOf records) = true := by
  induction records with
  | nil => rfl
  | cons r rs ih =>
    simp only [List.all_cons, Bool.and_eq_true] at h
    obtain ⟨hr, hrs⟩ := h
    unfold placemarksOf
    rw [List.filterMap_cons]
    cases hpm : placemarkOf r with
    | none => exact ih hrs
    | some e =>
      have hfields := placemarkOf_fields hpm hr
      have hrest : validForestB (placemarksOf rs) = true := ih hrs
      unfold placemarksOf at hrest
      simp only [validForestB, Bool.and_eq_true]
      exact ⟨hfields.1, hrest⟩

theorem placemarksOf_depth (records : List EventRecord)
    (h : records.all serializableRecord = true) :
    ∀ e ∈ placemarksOf records, depthE e ≤ 8 := by
  intro e he
  unfold placemarksOf at he
  obtain ⟨r, hr_mem, hpm⟩ := List.mem_filterMap.mp he
  have hr : serializableRecord r = true := by
    rw [List.all_eq_true] at h
    exact h r hr_mem
  exact le_of_eq (placemarkOf_fields hpm hr).2

theorem writeKmlDocument_ok (encoding : Chars) (records : List EventRecord)
    (hrec : records.all serializableRecord = true) :
    writeKmlDocument encoding records
      = .ok (headerXmlString encoding ++
          (serializeForest (placemarksOf records) ++ "</Document></kml>".toList)) := by
  unfold writeKmlDocument
  rw [writeBodies_ok records hrec (WriteHeader encoding [])]
  simp only
  unfold WriteFooter WriteText WriteHeader WriteText
  simp [List.append_assoc]

theorem parseDocument_writeKml (encoding : Chars) (records : List EventRecord)
    (henc : validEncodingName encoding = true)
    (hrec : records.all serializableRecord = true) :
    parseDocument (headerXmlString encoding ++
        (serializeForest (placemarksOf records) ++ "</Document></kml>".toList))
      = some (kmlDocRoot (placemarksOf records)) := by
  have hv := placemarksOf_valid records hrec
  have hdep := placemarksOf_depth records hrec
  have hflen := serializeForest_length (placemarksOf records)
  have hdf : depthF (placemarksOf records) ≤ (placemarksOf records).length + 8 :=
    depthF_le (placemarksOf records) hdep
  rw [headerXmlString_split]
  unfold parseDocument
  simp only [List.append_assoc, List.cons_append]
  rw [parseXmlDecl_header encoding henc]
  simp only
  obtain ⟨h, hh, hdh⟩ : ∃ h,
      (kmlOpenChars ++ (serializeForest (placemarksOf records)
        ++ "</Document></kml>".toList)).length + 1 = h + 3 ∧
      depthF (placemarksOf records) ≤ h := by
    have hlen1 : kmlOpenChars.length = 54 := by decide
    have hlen2 : ("</Document></kml>".toList).length = 17 := by decide
    refine ⟨(kmlOpenChars ++ (serializeForest (placemarksOf records)
      ++ "</Document></kml>".toList)).length - 2, ?_, ?_⟩
    · simp only [List.length_append, hlen1, hlen2]
      omega
    · simp only [List.length_append, hlen1, hlen2]
      omega
  rw [hh, parse_kml (placemarksOf records) hv h hdh]

theorem placemarkOf_tag {r : EventRecord} {e : XmlElement}
    (hpm : placemarkOf r = some e) : e.tag = "Placemark".toList := by
  unfold placemarkOf at hpm
  cases hlat : r.latitude with
  | none => rw [hlat] at hpm; cases hpm
  | some lat =>
    cases hlon : r.longitude with
    | none => rw [hlat, hlon] at hpm; cases hpm
    | some lon =>
      cases hid : r.identifier with
      | none => rw [hlat, hlon, hid] at hpm; cases hpm
      | some i =>
        rw [hlat, hlon, hid] at hpm
        simp only [Option.some_inj] at hpm
        rw [← hpm]
        rfl

theorem placemarksOf_length (records : List EventRecord)
    (h : records.all serializableRecord = true) :
    (placemarksOf records).length = (records.filter placemarkEligible).length := by
  induction records with
  | nil => rfl
  | cons r rs ih =>
    simp only [List.all_cons, Bool.and_eq_true] at h
    obtain ⟨hr, hrs⟩ := h
    unfold placemarksOf
    rw [List.filterMap_cons, List.filter_cons]
    cases hlat : r.latitude with
    | none =>
      have hpm : placemarkOf r = none := by
        unfold placemarkOf
        rw [hlat]
      have helig : placemarkEligible r = false := by
        unfold placemarkEligible
        rw [hlat]
        rfl
      rw [hpm, helig]
      simpa [placemarksOf] using ih hrs
    | some lat =>
      cases hlon : r.longitude with
      | none =>
        have hpm : placemarkOf r = none := by
          unfold placemarkOf
          rw [hlat, hlon]
        have helig : placemarkEligible r = false := by
          unfold placemarkEligible
          rw [hlat, hlon]
          rfl
        rw [hpm, helig]
        simpa [placemarksOf] using ih hrs
      | some lon =>
        have hr2 : serializableRecord r = true := hr
        unfold serializableRecord at hr2
        rw [hlat, hlon] at hr2
        simp only [Bool.and_eq_true] at hr2
        obtain ⟨⟨⟨⟨hidsome, _⟩, _⟩, _⟩, _⟩ := hr2
        obtain ⟨i, hi⟩ : ∃ i, r.identifier = some i := Option.isSome_iff_exists.mp hidsome
        have hpm : placemarkOf r = some (placemarkElement i r.description lon lat) := by
          unfold placemarkOf
          rw [hlat, hlon, hi]
        have helig : placemarkEligible r = true := by
          unfold placemarkEligible
          rw [hlat, hlon]
          rfl
        rw [hpm, helig]
        simp only [if_true, List.length_cons]
        have := ih hrs
        unfold placemarksOf at this
        simp [this]

theorem WriteEventBody_fail (r : EventRecord) (st : Chars)
    (helig : placemarkEligible r = true) (hid : r.identifier = none) :
    WriteEventBody r st = .error .identifierConversion := by
  unfold placemarkEligible at helig
  simp only [Bool.and_eq_true, Option.isSome_iff_exists] at helig
  obtain ⟨⟨lat, hlat⟩, ⟨lon, hlon⟩⟩ := helig
  unfold WriteEventBody
  rw [hlat, hlon, hid]

theorem WriteEventBody_serializable_ok (r : EventRecord) (st : Chars)
    (hr : serializableRecord r = true) : ∃ st2, WriteEventBody r st = .ok st2 := by
  cases hlat : r.latitude with
  | none => exact ⟨st, WriteEventBody_skip r st (Or.inl hlat)⟩
  | some lat =>
    cases hlon : r.longitude with
    | none => exact ⟨st, WriteEventBody_skip r st (Or.inr hlon)⟩
    | some lon =>
      have hr2 : serializableRecord r = true := hr
      unfold serializableRecord at hr2
      rw [hlat, hlon] at hr2
      simp only [Bool.and_eq_true] at hr2
      obtain ⟨⟨⟨⟨hidsome, _⟩, _⟩, _⟩, _⟩ := hr2
      obtain ⟨i, hi⟩ : ∃ i, r.identifier = some i := Option.isSome_iff_exists.mp hidsome
      exact ⟨_, WriteEventBody_eligible r st lat lon i hlat hlon hi⟩

theorem writeRecordsWithPolicy_false_pos (rs : List EventRecord) :
    ∀ pos pos2 st, writeRecordsWithPolicy false rs pos st
      = writeRecordsWithPolicy false rs pos2 st := by
  induction rs with
  | nil => intro pos pos2 st; rfl
  | cons r tl ih =>
    intro pos pos2 st
    rw [writeRecordsWithPolicy, writeRecordsWithPolicy]
    cases WriteEventBody r st with
    | ok st2 => exact ih (pos + 1) (pos2 + 1) st2
    | error e =>
      simp only [Bool.false_eq_true, if_false]
      exact ih (pos + 1) (pos2 + 1) st

theorem writeRecordsWithPolicy_strict_abort (pre : List EventRecord)
    (hpre : pre.all serializableRecord = true) (r : EventRecord)
    (helig : placemarkEligible r = true) (hid : r.identifier = none)
    (post : List EventRecord) : ∀ pos st,
    writeRecordsWithPolicy true (pre ++ r :: post) pos st = .error (pos + pre.length) := by
  induction pre with
  | nil =>
    intro pos st
    rw [List.nil_append, writeRecordsWithPolicy, WriteEventBody_fail r st helig hid]
    simp
  | cons p tl ih =>
    intro pos st
    simp only [List.all_cons, Bool.and_eq_true] at hpre
    obtain ⟨hp, htl⟩ := hpre
    rw [List.cons_append, writeRecordsWithPolicy]
    obtain ⟨st2, hst2⟩ := WriteEventBody_serializable_ok p st hp
    rw [hst2]
    simp only [List.length_cons]
    rw [ih htl (pos + 1) st2]
    congr 1
    omega

theorem writeRecordsWithPolicy_skip (pre : List EventRecord)
    (hpre : pre.all serializableRecord = true) (r : EventRecord)
    (helig : placemarkEligible r = true) (hid : r.identifier = none)
    (post : List EventRecord) : ∀ pos st,
    writeRecordsWithPolicy false (pre ++ r :: post) pos st
      = writeRecordsWithPolicy false (pre ++ post) pos st := by
  induction pre with
  | nil =>
    intro pos st
    rw [List.nil_append, List.nil_append, writeRecordsWithPolicy,
      WriteEventBody_fail r st helig hid]
    simp only [Bool.false_eq_true, if_false]
    exact writeRecordsWithPolicy_false_pos post (pos + 1) pos st
  | cons p tl ih =>
    intro pos st
    simp only [List.all_cons, Bool.and_eq_true] at hpre
    obtain ⟨hp, htl⟩ := hpre
    rw [List.cons_append, List.cons_append, writeRecordsWithPolicy, writeRecordsWithPolicy]
    obtain ⟨st2, hst2⟩ := WriteEventBody_serializable_ok p st hp
    rw [hst2]
    exact ih htl (pos + 1) st2

/- Claim-level theorems. -/
/-- Claim C1: WriteHeader, then one WriteEventBody per record in input order
(any mix of eligible and ineligible records), then WriteFooter produces
output that parses as a single XML document whose root is a kml element with
exactly one Document child, whose children are exactly the Placemark trees
of the eligible records in input order — count(eligible records) many, each
tagged Placemark.  With zero records the Document child list is empty, a
valid empty Document. -/
theorem writeKmlDocument_parses_wellformed (encoding : Chars) (records : List EventRecord)
    (henc : validEncodingName encoding = true)
    (hrec : records.all serializableRecord = true) :
    ∃ out, writeKmlDocument encoding records = Except.ok out ∧
      parseDocument out = some (kmlDocRoot (placemarksOf records)) ∧
      (kmlDocRoot (placemarksOf records)).tag = "kml".toList ∧
      (kmlDocRoot (placemarksOf records)).children =
        [XmlElement.mk "Document".toList [] [] (placemarksOf records)] ∧
      (placemarksOf records).length = (records.filter placemarkEligible).length ∧
      ∀ p ∈ placemarksOf records, p.tag = "Placemark".toList := by
  refine ⟨_, writeKmlDocument_ok encoding records hrec,
    parseDocument_writeKml encoding records henc hrec, rfl, rfl,
    placemarksOf_length records hrec, ?_⟩
  intro p hp
  obtain ⟨r, _, hpm⟩ := List.mem_filterMap.mp (by simpa [placemarksOf] using hp)
  exact placemarkOf_tag hpm

theorem writeKmlDocument_parses_wellformed_witness :
    validEncodingName "utf-8".toList = true ∧
    sampleRecords.all serializableRecord = true ∧
    (∃ out, writeKmlDocument "utf-8".toList sampleRecords = Except.ok out ∧
      parseDocument out = some (kmlDocRoot (placemarksOf sampleRecords)) ∧
      (kmlDocRoot (placemarksOf sampleRecords)).tag = "kml".toList ∧
      (kmlDocRoot (placemarksOf sampleRecords)).children =
        [XmlElement.mk "Document".toList [] [] (placemarksOf sampleRecords)] ∧
      (placemarksOf sampleRecords).length = (sampleRecords.filter placemarkEligible).length ∧
      ∀ p ∈ placemarksOf sampleRecords, p.tag = "Placemark".toList) :=
  ⟨by decide, by decide,
    writeKmlDocument_parses_wellformed "utf-8".toList sampleRecords (by decide) (by decide)⟩

/-- Claim C2: when latitude or longitude is absent, WriteEventBody returns
successfully and leaves the sink unchanged: zero bytes written, no
exception. -/
theorem WriteEventBody_missing_coordinate (r : EventRecord) (st : Chars)
    (h : r.latitude = none ∨ r.longitude = none) :
    WriteEventBody r st = Except.ok st :=
  WriteEventBody_skip r st h

theorem WriteEventBody_missing_coordinate_witness :
    ((⟨some "E1".toList, none, some "1.0".toList, "d".toList⟩ : EventRecord).latitude = none ∨
      (⟨some "E1".toList, none, some "1.0".toList, "d".toList⟩ : EventRecord).longitude = none) ∧
    WriteEventBody ⟨some "E1".toList, none, some "1.0".toList, "d".toList⟩ "abc".toList
      = Except.ok "abc".toList :=
  ⟨Or.inl rfl,
    WriteEventBody_missing_coordinate ⟨some "E1".toList, none, some "1.0".toList, "d".toList⟩
      "abc".toList (Or.inl rfl)⟩

/-- Claim C3: the coordinates element's text is the longitude text, a
literal comma, then the latitude text — longitude always first — as
recovered by parsing the emitted fragment. -/
theorem coordinates_longitude_first (i d lo la : Chars)
    (hi : validTextChars i = true) (hd : validTextChars d = true)
    (hlo : validTextChars lo = true) (hla : validTextChars la = true) :
    ∃ pm, parseFragment (ElementTree_tostring (placemarkElement i d lo la)) = some pm ∧
      coordinatesTextOf pm = some (lo ++ ',' :: la) :=
  ⟨placemarkElement i d lo la, parseFragment_placemark i d lo la hi hd hlo hla, rfl⟩

theorem coordinates_longitude_first_witness :
    validTextChars "a".toList = true ∧ validTextChars "b".toList = true ∧
    validTextChars "-70.25".toList = true ∧ validTextChars "12.5".toList = true ∧
    (∃ pm, parseFragment (ElementTree_tostring
        (placemarkElement "a".toList "b".toList "-70.25".toList "12.5".toList)) = some pm ∧
      coordinatesTextOf pm = some ("-70.25".toList ++ ',' :: "12.5".toList)) ∧
    "-70.25".toList ++ ',' :: "12.5".toList = "-70.25,12.5".toList :=
  ⟨by decide, by decide, by decide, by decide,
    coordinates_longitude_first "a".toList "b".toList "-70.25".toList "12.5".toList
      (by decide) (by decide) (by decide) (by decide), by decide⟩

/-- Claim C4: escaping round-trip — parsing the emitted Placemark fragment
recovers the identifier exactly and the description exactly (with the one
appended trailing newline), including strings containing markup characters,
quotes and non-ASCII text. -/
theorem escape_parse_roundtrip (i d lo la : Chars)
    (hi : validTextChars i = true) (hd : validTextChars d = true)
    (hlo : validTextChars lo = true) (hla : validTextChars la = true) :
    ∃ pm, parseFragment (ElementTree_tostring (placemarkElement i d lo la)) = some pm ∧
      pm.children.head? = some (XmlElement.mk "name".toList [] i []) ∧
      (pm.children.drop 1).head? =
        some (XmlElement.mk "description".toList [] (d ++ ['\n']) []) :=
  ⟨placemarkElement i d lo la, parseFragment_placemark i d lo la hi hd hlo hla, rfl, rfl⟩

theorem escape_parse_roundtrip_witness :
    validTextChars "a<b>&\"é".toList = true ∧
    validTextChars "x<&>\"y".toList = true ∧
    validTextChars "1.5".toList = true ∧ validTextChars "2.5".toList = true ∧
    (∃ pm, parseFragment (ElementTree_tostring
        (placemarkElement "a<b>&\"é".toList "x<&>\"y".toList "1.5".toList "2.5".toList))
        = some pm ∧
      pm.children.head? = some (XmlElement.mk "name".toList [] "a<b>&\"é".toList []) ∧
      (pm.children.drop 1).head? =
        some (XmlElement.mk "description".toList [] ("x<&>\"y".toList ++ ['\n']) [])) :=
  ⟨by decide, by decide, by decide, by decide,
    escape_parse_roundtrip "a<b>&\"é".toList "x<&>\"y".toList "1.5".toList "2.5".toList
      (by decide) (by decide) (by decide) (by decide)⟩

/-- Claim C5: for an eligible record WriteEventBody emits exactly one
fragment, and parsing it yields exactly the tree
Placemark[name(identifier), description(text + newline),
Point[coordinates(longitude,latitude)]] with no other elements and no
attributes. -/
theorem WriteEventBody_placemark_structure (r : EventRecord) (st : Chars) (lat lon i : Chars)
    (hlat : r.latitude = some lat) (hlon : r.longitude = some lon)
    (hid : r.identifier = some i)
    (hiv : validTextChars i = true) (hdv : validTextChars r.description = true)
    (hlatv : validTextChars lat = true) (hlonv : validTextChars lon = true) :
    ∃ frag, WriteEventBody r st = Except.ok (st ++ frag) ∧
      parseFragment frag = some (XmlElement.mk "Placemark".toList [] []
        [XmlElement.mk "name".toList [] i [],
         XmlElement.mk "description".toList [] (r.description ++ ['\n']) [],
         XmlElement.mk "Point".toList [] []
           [XmlElement.mk "coordinates".toList [] (lon ++ ',' :: lat) []]]) :=
  ⟨ElementTree_tostring (placemarkElement i r.description lon lat),
    WriteEventBody_eligible r st lat lon i hlat hlon hid,
    parseFragment_placemark i r.description lon lat hiv hdv hlonv hlatv⟩

theorem WriteEventBody_placemark_structure_witness :
    sampleEligibleRecord.latitude = some "37.42".toList ∧
    sampleEligibleRecord.longitude = some "-122.08".toList ∧
    sampleEligibleRecord.identifier = some "E1".toList ∧
    validTextChars "E1".toList = true ∧
    validTextChars sampleEligibleRecord.description = true ∧
    validTextChars "37.42".toList = true ∧
    validTextChars "-122.08".toList = true ∧
    (∃ frag, WriteEventBody sampleEligibleRecord "h".toList = Except.ok ("h".toList ++ frag) ∧
      parseFragment frag = some (XmlElement.mk "Placemark".toList [] []
        [XmlElement.mk "name".toList [] "E1".toList [],
         XmlElement.mk "description".toList []
           (sampleEligibleRecord.description ++ ['\n']) [],
         XmlElement.mk "Point".toList [] []
           [XmlElement.mk "coordinates".toList []
             ("-122.08".toList ++ ',' :: "37.42".toList) []]])) :=
  ⟨rfl, rfl, rfl, by decide, by decide, by decide, by decide,
    WriteEventBody_placemark_structure sampleEligibleRecord "h".toList
      "37.42".toList "-122.08".toList "E1".toList rfl rfl rfl
      (by decide) (by decide) (by decide) (by decide)⟩

/-- Claim C6: WriteHeader performs a single text write whose content is
exactly the XML declaration carrying the configured encoding name,
immediately followed by the kml open tag with the KML 2.2 namespace and the
Document open tag — nothing else. -/
theorem WriteHeader_exact (encoding st : Chars) :
    WriteHeader encoding st
      = st ++ (xmlDeclaration encoding ++ (kmlOpenTag ++ documentOpenTag)) := by
  unfold WriteHeader WriteText headerXmlString xmlDeclaration kmlOpenTag documentOpenTag
  have h : "\"?><kml xmlns=\"http://www.opengis.net/kml/2.2\"><Document>".toList
      = "\"?>".toList ++ ("<kml xmlns=\"http://www.opengis.net/kml/2.2\">".toList
          ++ "<Document>".toList) := by decide
  rw [h]
  simp [List.append_assoc]

set_option maxRecDepth 8192 in
/-- Claim C7 counterexample: calling WriteHeader a second time silently
writes the full header text again — concretely, with encoding utf-8 the sink
after two calls differs from the sink after one and holds twice the header's
bytes, so no FramingViolation is raised and additional bytes are written. -/
theorem WriteHeader_twice_counterexample :
    WriteHeader "utf-8".toList (WriteHeader "utf-8".toList [])
        ≠ WriteHeader "utf-8".toList [] ∧
      (WriteHeader "utf-8".toList (WriteHeader "utf-8".toList [])).length
        = 2 * (headerXmlString "utf-8".toList).length := by
  constructor
  · decide
  · decide

/-- Claim C7 amended: the module keeps no headerWritten flag and raises
nothing: WriteHeader unconditionally appends the header text on every call
(so a second call writes it twice), and WriteFooter unconditionally appends
the footer text even if WriteHeader never ran. -/
theorem WriteHeader_unconditional (encoding st : Chars) :
    WriteHeader encoding (WriteHeader encoding st)
        = st ++ (headerXmlString encoding ++ headerXmlString encoding) ∧
      WriteFooter st = st ++ "</Document></kml>".toList := by
  unfold WriteHeader WriteFooter WriteText
  simp [List.append_assoc]

/-- Claim C8: a record whose identifier conversion fails makes WriteEventBody
fail; under the spec's policy model the strict mode aborts the whole write
with the failing record's stream position, while the default mode skips
exactly that record (writing nothing for it) and continues. -/
theorem serialization_failure_policy (pre post : List EventRecord) (r : EventRecord)
    (pos : Nat) (st : Chars)
    (hpre : pre.all serializableRecord = true)
    (helig : placemarkEligible r = true) (hid : r.identifier = none) :
    WriteEventBody r st = Except.error WriteError.identifierConversion ∧
      writeRecordsWithPolicy true (pre ++ r :: post) pos st
        = Except.error (pos + pre.length) ∧
      writeRecordsWithPolicy false (pre ++ r :: post) pos st
        = writeRecordsWithPolicy false (pre ++ post) pos st :=
  ⟨WriteEventBody_fail r st helig hid,
    writeRecordsWithPolicy_strict_abort pre hpre r helig hid post pos st,
    writeRecordsWithPolicy_skip pre hpre r helig hid post pos st⟩

theorem serialization_failure_policy_witness :
    ([sampleEligibleRecord] : List EventRecord).all serializableRecord = true ∧
    placemarkEligible sampleBadRecord = true ∧
    sampleBadRecord.identifier = none ∧
    (WriteEventBody sampleBadRecord "s".toList
        = Except.error WriteError.identifierConversion ∧
      writeRecordsWithPolicy true ([sampleEligibleRecord] ++ sampleBadRecord ::
        [sampleIneligibleRecord]) 0 "s".toList = Except.error (0 + 1) ∧
      writeRecordsWithPolicy false ([sampleEligibleRecord] ++ sampleBadRecord ::
        [sampleIneligibleRecord]) 0 "s".toList
        = writeRecordsWithPolicy false ([sampleEligibleRecord] ++ [sampleIneligibleRecord])
            0 "s".toList) := by
  refine ⟨by decide, by decide, rfl, ?_⟩
  have h := serialization_failure_policy [sampleEligibleRecord] [sampleIneligibleRecord]
    sampleBadRecord 0 "s".toList (by decide) (by decide) rfl
  simpa using h

/-- Claim C9: eligibility is an is-not-None test, not truthiness: a record
whose coordinates are present is eligible whatever their rendered values
(for example the falsy-in-Python 0.0), and WriteEventBody emits its
Placemark whose coordinates text is the longitude text, a comma, and the
latitude text. -/
theorem eligibility_is_not_none (r : EventRecord) (st : Chars) (latText lonText i : Chars)
    (hlat : r.latitude = some latText) (hlon : r.longitude = some lonText)
    (hid : r.identifier = some i) :
    placemarkEligible r = true ∧
      WriteEventBody r st = Except.ok
        (st ++ ElementTree_tostring (placemarkElement i r.description lonText latText)) ∧
      coordinatesTextOf (placemarkElement i r.description lonText latText)
        = some (lonText ++ ',' :: latText) := by
  refine ⟨?_, WriteEventBody_eligible r st latText lonText i hlat hlon hid, rfl⟩
  unfold placemarkEligible
  rw [hlat, hlon]
  rfl

theorem eligibility_is_not_none_witness :
    sampleZeroRecord.latitude = some "0.0".toList ∧
    sampleZeroRecord.longitude = some "0.0".toList ∧
    sampleZeroRecord.identifier = some "E0".toList ∧
    (placemarkEligible sampleZeroRecord = true ∧
      WriteEventBody sampleZeroRecord [] = Except.ok
        ([] ++ ElementTree_tostring (placemarkElement "E0".toList
          sampleZeroRecord.description "0.0".toList "0.0".toList)) ∧
      coordinatesTextOf (placemarkElement "E0".toList sampleZeroRecord.description
        "0.0".toList "0.0".toList) = some ("0.0".toList ++ ',' :: "0.0".toList)) ∧
    "0.0".toList ++ ',' :: "0.0".toList = "0.0,0.0".toList :=
  ⟨rfl, rfl, rfl,
    eligibility_is_not_none sampleZeroRecord [] "0.0".toList "0.0".toList "E0".toList
      rfl rfl rfl, by decide⟩

/-- Claim C10: whatever the identifier, description and coordinate texts
contain, the serialized Placemark fragment is pure ASCII (non-ASCII
characters leave ElementTree.tostring as numeric character references), so
the subsequent codecs.decode with any ASCII-compatible encoding succeeds and
returns the fragment unchanged. -/
theorem fragment_always_ascii (i d lo la : Chars) :
    isAsciiChars (ElementTree_tostring (placemarkElement i d lo la)) = true ∧
      codecs_decode (ElementTree_tostring (placemarkElement i d lo la))
        = some (ElementTree_tostring (placemarkElement i d lo la)) ∧
      ∀ dec, AsciiCompatibleDecode dec →
        dec (ElementTree_tostring (placemarkElement i d lo la))
          = some (ElementTree_tostring (placemarkElement i d lo la)) := by
  have h := tostring_placemark_ascii i d lo la
  refine ⟨h, ?_, fun dec hdec => hdec _ h⟩
  simp [codecs_decode, h]

theorem fragment_always_ascii_witness :
    AsciiCompatibleDecode codecs_decode ∧
    codecs_decode (ElementTree_tostring (placemarkElement "é".toList "b".toList
        "1".toList "2".toList))
      = some (ElementTree_tostring (placemarkElement "é".toList "b".toList
        "1".toList "2".toList)) :=
  ⟨fun s hs => by simp [codecs_decode, hs],
    (fragment_always_ascii "é".toList "b".toList "1".toList "2".toList).2.2 codecs_decode
      (fun s hs => by simp [codecs_decode, hs])⟩
